import Mathlib

/-!
Verification of the revenq broadcast revision queue.

The development shallowly embeds the core of the crate (src/lib.rs together
with the older variants in src/utils.rs, src/queue.rs and src/woke_queue.rs)
into Lean:

* the chain of revision nodes is modelled as an explicit slot store: a list of
  optional nodes, indexed by slot identifiers; the `Arc<OnceCell<RevisionNode>>`
  respectively `Arc<AtomSetOnce<RevisionNode>>` append slot of the Rust code is
  one entry of that list, and allocating a fresh empty slot appends `none`;
* `Queue::publish_intern`, `RevisionRef::new_and_forward`,
  `Iterator::next`, `Queue::enqueue` and `Clone for Queue` become pure
  functions on the store and on a handle record holding the cursor slot and
  the pending buffer;
* reference counts of a slot (the quantity the Rust code inspects through
  `Arc::get_mut` / `Arc::strong_count`) are reconstructed from a whole-system
  state: each queue handle cursor, each full slot whose node points at the
  slot, and each outstanding revision reference contributes one strong owner;
* the suspension loops `Queue::next_async` and `WokeQueue::next_blocking` are
  modelled as runs over an explicit list of environment observations, one per
  loop iteration: the store contents seen by that iteration together with the
  outcome of the sole-ownership check.  Interleaved actions of other threads
  are captured by letting consecutive observations differ.
-/

namespace Revenq

/-- RevisionNode from src/lib.rs: one published value and the slot that will
hold the successor node. -/
structure RevisionNode (T : Type) where
  next : Nat
  data : T
deriving DecidableEq

/-- The store models the set of all append slots that have been allocated so
far; `none` is an empty (not yet written) slot. -/
abbrev Store (T : Type) := List (Option (RevisionNode T))

/-- Read an append slot: empty for a missing or unset slot. -/
def getSlot (st : Store T) (s : Nat) : Option (RevisionNode T) :=
  match st[s]? with
  | some (some n) => some n
  | _ => none

/-- Write a node into an append slot (the successful branch of the
compare-and-set in get_or_init / new_cas). -/
def setSlot (st : Store T) (s : Nat) (n : RevisionNode T) : Store T :=
  st.set s (some n)

/-- Queue handle from src/lib.rs: the shared cursor slot and the local
buffer of not yet published values. -/
structure Queue (T : Type) where
  next : Nat
  pending : List T
deriving DecidableEq

/-- An owning reference to one revision node, identified by the slot that
holds the node (the `inner` field of RevisionRef in src/lib.rs). -/
structure RevisionRef where
  inner : Nat
deriving DecidableEq

/-- Dereference a revision reference: the payload of the node in its slot. -/
def derefSlot (st : Store T) (r : RevisionRef) : Option T :=
  (getSlot st r.inner).map (fun n => n.data)

/-- RevisionRef::new_and_forward from src/lib.rs: if the cursor slot is full,
materialize a reference to the node it holds and advance the cursor to the
node successor slot; otherwise leave the cursor alone and return nothing. -/
def newAndForward (st : Store T) (c : Nat) : Nat × Option RevisionRef :=
  match getSlot st c with
  | some n => (n.next, some ⟨c⟩)
  | none => (c, none)

/-- Loop body of Queue::publish_intern from src/lib.rs, recursing over the
pending buffer.  Arguments: store, cursor, pending; result: store, cursor,
pending, returned reference.  Each round pops the front pending value and
tries the compare-and-set on the cursor slot: if the slot is empty the value
is installed with a freshly allocated empty successor slot and publishing
continues from that successor; if the slot is already full the popped value is
pushed back to the front, the cursor moves to the successor slot of the
winning node, and a reference to the winner is returned. -/
def publishInternGo : Store T → Nat → List T → Store T × Nat × List T × Option RevisionRef
  | st, c, [] => (st, c, [], none)
  | st, c, d :: rest =>
    match getSlot st c with
    | some n => (st, n.next, d :: rest, some ⟨c⟩)
    | none => publishInternGo (setSlot st c ⟨st.length, d⟩ ++ [none]) st.length rest

/-- Queue::publish_intern from src/lib.rs, acting on a queue handle. -/
def publishIntern (st : Store T) (q : Queue T) : Store T × Queue T × Option RevisionRef :=
  match publishInternGo st q.next q.pending with
  | (st2, c2, p2, ret) => (st2, ⟨c2, p2⟩, ret)

/-- Iterator::next for Queue from src/lib.rs: first try to publish pending
values (which may return a revision discovered from a lost race), then fall
back to reading the cursor slot via new_and_forward. -/
def iterNext (st : Store T) (q : Queue T) : Store T × Queue T × Option RevisionRef :=
  match publishIntern st q with
  | (st2, q2, some r) => (st2, q2, some r)
  | (st2, q2, none) =>
    match newAndForward st2 q2.next with
    | (c3, r3) => (st2, ⟨c3, q2.pending⟩, r3)

/-- Queue::enqueue from src/lib.rs: push the value to the back of the local
pending buffer. -/
def enqueue (q : Queue T) (a : T) : Queue T :=
  ⟨q.next, q.pending ++ [a]⟩

/-- Clone for Queue from src/lib.rs: share the current cursor slot, start
with an empty pending buffer. -/
def cloneQueue (q : Queue T) : Queue T :=
  ⟨q.next, []⟩

/-- Whole-system state: the shared store of append slots, every live queue
handle, and every outstanding revision reference.  This is exactly the set of
strong owners of slot Arcs in the Rust code, which lets us compute the strong
count that `Arc::get_mut` inspects. -/
structure System (T : Type) where
  store : Store T
  handles : List (Queue T)
  refs : List RevisionRef
deriving DecidableEq

/-- Strong count of the Arc of slot `s`: one owner per handle whose cursor is
the slot, per full slot whose node names the slot as successor, and per
revision reference pointing at the slot. -/
def strongCount (sys : System T) (s : Nat) : Nat :=
  (sys.handles.filter (fun h => h.next == s)).length
    + ((sys.store.filterMap (fun o => o)).filter (fun n => n.next == s)).length
    + (sys.refs.filter (fun r => r.inner == s)).length

/-- Outcome of RevisionRef::try_detach: the mutable borrow of the payload on
success, the recoverable RevisionDetachError, or a panic of the `unwrap` on a
reference whose slot is empty (impossible for references produced by the
queue). -/
inductive DetachOut (T : Type) where
  | ok (payload : T)
  | err
  | panic
deriving DecidableEq

/-- RevisionRef::try_detach from src/lib.rs, acting on reference `i` of the
system: `Arc::get_mut` on the slot Arc succeeds exactly when this reference
is its only strong owner; in that case the node stays in place but its
successor pointer is replaced by a freshly allocated empty slot.  On failure
nothing is touched and RevisionDetachError is returned. -/
def tryDetach (sys : System T) (i : Nat) : System T × DetachOut T :=
  match sys.refs[i]? with
  | none => (sys, DetachOut.panic)
  | some r =>
    if strongCount sys r.inner = 1 then
      match getSlot sys.store r.inner with
      | some n =>
        ({ sys with
            store := setSlot sys.store r.inner ⟨sys.store.length, n.data⟩ ++ [none] },
         DetachOut.ok n.data)
      | none => (sys, DetachOut.panic)
    else (sys, DetachOut.err)

/-- Outcome of RevisionRef::try_into_inner: the moved-out payload on success,
or the original reference handed back inside Err. -/
inductive IntoInnerOut (T : Type) where
  | ok (payload : T)
  | errSelf
  | panic
deriving DecidableEq

/-- RevisionRef::try_into_inner from src/lib.rs, acting on reference `i` of
the system: when this reference is the only strong owner of its slot the node
is taken out of the cell and its payload returned, consuming the reference;
otherwise Err gives the reference back to the caller and nothing changes. -/
def tryIntoInner (sys : System T) (i : Nat) : System T × IntoInnerOut T :=
  match sys.refs[i]? with
  | none => (sys, IntoInnerOut.panic)
  | some r =>
    if strongCount sys r.inner = 1 then
      match getSlot sys.store r.inner with
      | some n =>
        ({ store := sys.store.set r.inner none,
           handles := sys.handles,
           refs := sys.refs.eraseIdx i },
         IntoInnerOut.ok n.data)
      | none => (sys, IntoInnerOut.panic)
    else (sys, IntoInnerOut.errSelf)

/-- Queue operations a caller can perform on a system: buffer a value on
handle `i`, advance handle `i` (Iterator::next), or clone handle `i`. -/
inductive Op (T : Type) where
  | enqueue (i : Nat) (a : T)
  | advance (i : Nat)
  | clone (i : Nat)

/-- Apply one operation; the second component reports an observation: the
handle index together with the slot of the revision reference which the
advance call materialized, if any. -/
def applyOp (sys : System T) : Op T → System T × Option (Nat × Nat)
  | Op.enqueue i a =>
    match sys.handles[i]? with
    | some h => ({ sys with handles := sys.handles.set i (enqueue h a) }, none)
    | none => (sys, none)
  | Op.advance i =>
    match sys.handles[i]? with
    | some h =>
      match iterNext sys.store h with
      | (st2, h2, some r) =>
        ({ store := st2, handles := sys.handles.set i h2, refs := sys.refs ++ [r] },
         some (i, r.inner))
      | (st2, h2, none) =>
        ({ store := st2, handles := sys.handles.set i h2, refs := sys.refs }, none)
    | none => (sys, none)
  | Op.clone i =>
    match sys.handles[i]? with
    | some h => ({ sys with handles := sys.handles ++ [cloneQueue h] }, none)
    | none => (sys, none)

/-- Run a sequence of operations, collecting all observations in order. -/
def run : System T → List (Op T) → System T × List (Nat × Nat)
  | sys, [] => (sys, [])
  | sys, op :: ops =>
    match applyOp sys op with
    | (sys2, obs) =>
      match run sys2 ops with
      | (sys3, obss) => (sys3, obs.toList ++ obss)

/-- Observations made through handle `i`: the slots of the nodes this handle
materialized, in order. -/
def obsOf (i : Nat) (l : List (Nat × Nat)) : List Nat :=
  (l.filter (fun p => p.1 == i)).map Prod.snd

/-- Well-formedness of one slot: a full slot points strictly forward, to an
allocated slot. -/
def slotOk (st : Store T) (s : Nat) : Bool :=
  match getSlot st s with
  | none => true
  | some n => decide (s < n.next) && decide (n.next < st.length)

/-- Well-formedness of the store: every full slot points strictly forward to
an allocated slot.  This holds for every store the queue operations build,
because fresh successor slots are allocated at the end of the store. -/
def wfStore (st : Store T) : Bool :=
  (List.range st.length).all (slotOk st)

/-- Well-formedness of a system: well-formed store and every handle cursor
names an allocated slot. -/
def wfSys (sys : System T) : Bool :=
  wfStore sys.store && sys.handles.all (fun h => decide (h.next < sys.store.length))

/-- Environment of one iteration of the Queue::next_async loop from
src/lib.rs: the store contents read by the inner call to Iterator::next, the
outcome of the sole-ownership check on the next_ops Arc (true when
`Arc::get_mut` succeeded, i.e. no other handle holds the wait registry), and
the store contents read by the re-check that catches publishes racing with
the registration. -/
structure AsyncEnv (T : Type) where
  store : Store T
  sole : Bool
  recheckStore : Store T
deriving DecidableEq

/-- Queue::next_async from src/lib.rs as a run over per-iteration
environments: each round registers a listener, calls Iterator::next and
returns any revision it yields; otherwise, if this handle is the sole owner
of the wait registry it returns the result of one final new_and_forward
re-check instead of suspending; otherwise it suspends and retries on wake.
An empty remaining environment stands for a still-suspended call and yields
no result. -/
def nextAsyncRun : Queue T → List (AsyncEnv T) → Option (Store T × Queue T × Option RevisionRef)
  | _, [] => none
  | q, e :: rest =>
    match iterNext e.store q with
    | (st2, q2, some r) => some (st2, q2, some r)
    | (_, q2, none) =>
      if e.sole then
        match newAndForward e.recheckStore q2.next with
        | (c3, r3) => some (e.recheckStore, ⟨c3, q2.pending⟩, r3)
      else nextAsyncRun q2 rest

/-- WokeQueue::next_blocking from src/woke_queue.rs as a run over
per-iteration environments (store contents seen by the inner Iterator::next,
and whether the wakers registry Arc had no other owner): each round returns
any revision the inner call yields; otherwise it registers the current thread
and, if no other handle owns the registry, terminates with no data instead of
parking; otherwise it parks and retries on unpark. -/
def nextBlockingRun : Queue T → List (Store T × Bool) → Option (Store T × Queue T × Option RevisionRef)
  | _, [] => none
  | q, e :: rest =>
    match iterNext e.1 q with
    | (st2, q2, some r) => some (st2, q2, some r)
    | (st2, q2, none) =>
      if e.2 then some (st2, q2, none) else nextBlockingRun q2 rest

/-- notify_all from src/woke_queue.rs: drain the registry, unparking every
registered thread other than the calling one. -/
def notifyAll (ctid : Nat) (wakers : List Nat) : List Nat × List Nat :=
  ([], wakers.filter (fun t => t != ctid))

/-- Drop for WokeQueue from src/woke_queue.rs: when the strong count of the
wakers registry is 2 (this handle plus exactly one other), drain the registry
and unpark everyone registered.  Result: registry afterwards, list of
unparked threads. -/
def wokeQueueDrop (ctid : Nat) (strong : Nat) (wakers : List Nat) : List Nat × List Nat :=
  if strong == 2 then notifyAll ctid wakers else (wakers, [])

/-- Drop for Queue from src/lib.rs: when the strong count of the next_ops
event is 2, notify one listener.  Result: how many listeners get woken. -/
def queueDropNotifyCount (strong listeners : Nat) : Nat :=
  if strong == 2 then min 1 listeners else 0

/-- Read the data of the first `k` nodes of the chain starting at slot `s`. -/
def chainData : Store T → Nat → Nat → List T
  | _, _, 0 => []
  | st, s, k + 1 =>
    match getSlot st s with
    | none => []
    | some n => n.data :: chainData st n.next k

theorem getSlot_lt_length {st : Store T} {s : Nat} {n : RevisionNode T}
    (h : getSlot st s = some n) : s < st.length := by
  by_contra hge
  have hnone : st[s]? = none := List.getElem?_eq_none (by omega)
  simp [getSlot, hnone] at h

theorem getSlot_of_ge {st : Store T} {s : Nat} (h : st.length ≤ s) :
    getSlot st s = none := by
  have hnone : st[s]? = none := List.getElem?_eq_none h
  simp [getSlot, hnone]

theorem getSlot_extend_self {st : Store T} {c : Nat} (x : RevisionNode T)
    (hc : c < st.length) : getSlot (setSlot st c x ++ [none]) c = some x := by
  have h1 : c < (st.set c (some x)).length := by simpa using hc
  have e1 : (setSlot st c x ++ [none])[c]? = (st.set c (some x))[c]? :=
    List.getElem?_append_left h1
  rw [getSlot, e1, List.getElem?_set_self hc]

theorem getSlot_extend_ne {st : Store T} {c s : Nat} (x : RevisionNode T)
    (hne : s ≠ c) : getSlot (setSlot st c x ++ [none]) s = getSlot st s := by
  rcases lt_or_ge s st.length with hlt | hge
  · have h1 : s < (st.set c (some x)).length := by simpa using hlt
    have e1 : (setSlot st c x ++ [none])[s]? = (st.set c (some x))[s]? :=
      List.getElem?_append_left h1
    have e2 : (st.set c (some x))[s]? = st[s]? := List.getElem?_set_ne (Ne.symm hne)
    rw [getSlot, e1, e2, getSlot]
  · rw [getSlot_of_ge hge]
    rcases Nat.eq_or_lt_of_le hge with heq | hlt2
    · have e3 : (setSlot st c x ++ [none])[(st.set c (some x)).length]? = some none :=
        List.getElem?_concat_length _ _
      rw [List.length_set] at e3
      rw [getSlot, ← heq, e3]
    · have hlen : (setSlot st c x ++ [none]).length ≤ s := by
        simp [setSlot]; omega
      have e4 : (setSlot st c x ++ [none])[s]? = none := List.getElem?_eq_none hlen
      rw [getSlot, e4]

theorem getSlot_extend_fresh {st : Store T} {c : Nat} (x : RevisionNode T) :
    getSlot (setSlot st c x ++ [none]) st.length = none := by
  have e3 : (setSlot st c x ++ [none])[(st.set c (some x)).length]? = some none :=
    List.getElem?_concat_length _ _
  rw [List.length_set] at e3
  rw [getSlot, e3]

theorem wfStore_spec {st : Store T} (h : wfStore st = true) {s : Nat} {n : RevisionNode T}
    (hs : getSlot st s = some n) : s < n.next ∧ n.next < st.length := by
  have hlt := getSlot_lt_length hs
  have hall := List.all_eq_true.mp h s (List.mem_range.mpr hlt)
  simpa [slotOk, hs] using hall

theorem wfStore_of {st : Store T}
    (h : ∀ s n, getSlot st s = some n → s < n.next ∧ n.next < st.length) :
    wfStore st = true := by
  apply List.all_eq_true.mpr
  intro s _
  unfold slotOk
  cases hsl : getSlot st s with
  | none => rfl
  | some n => simpa using h s n hsl

theorem pubGo_preserves_full (p : List T) :
    ∀ (st : Store T) (c : Nat) (st2 : Store T) (c2 : Nat) (p2 : List T)
      (ret : Option RevisionRef),
      publishInternGo st c p = (st2, c2, p2, ret) →
      ∀ s v, getSlot st s = some v → getSlot st2 s = some v := by
  induction p with
  | nil =>
    intro st c st2 c2 p2 ret heq s v hs
    simp only [publishInternGo, Prod.mk.injEq] at heq
    obtain ⟨rfl, -⟩ := heq
    exact hs
  | cons d rest ih =>
    intro st c st2 c2 p2 ret heq s v hs
    rw [publishInternGo] at heq
    cases hsl : getSlot st c with
    | some n =>
      rw [hsl] at heq
      simp only [Prod.mk.injEq] at heq
      obtain ⟨rfl, -⟩ := heq
      exact hs
    | none =>
      rw [hsl] at heq
      have hne : s ≠ c := by
        intro hsc
        rw [hsc, hsl] at hs
        cases hs
      have hs2 : getSlot (setSlot st c ⟨st.length, d⟩ ++ [none]) s = some v := by
        rw [getSlot_extend_ne _ hne]
        exact hs
      exact ih _ _ _ _ _ _ heq s v hs2

theorem length_extend (st : Store T) (c : Nat) (x : RevisionNode T) :
    (setSlot st c x ++ [none]).length = st.length + 1 := by
  simp [setSlot]

theorem pubGo_spec (p : List T) :
    ∀ (st : Store T) (c : Nat) (st2 : Store T) (c2 : Nat) (p2 : List T)
      (ret : Option RevisionRef),
      publishInternGo st c p = (st2, c2, p2, ret) →
      wfStore st = true → c < st.length →
      wfStore st2 = true ∧ st.length ≤ st2.length ∧ c ≤ c2 ∧ c2 < st2.length ∧
        (∀ r, ret = some r →
          c ≤ r.inner ∧ ∃ n, getSlot st2 r.inner = some n ∧ c2 = n.next) := by
  induction p with
  | nil =>
    intro st c st2 c2 p2 ret heq hw hc
    simp only [publishInternGo, Prod.mk.injEq] at heq
    obtain ⟨rfl, rfl, -, rfl⟩ := heq
    exact ⟨hw, le_refl _, le_refl _, hc, fun r hr => Option.noConfusion hr⟩
  | cons d rest ih =>
    intro st c st2 c2 p2 ret heq hw hc
    rw [publishInternGo] at heq
    cases hsl : getSlot st c with
    | some n =>
      rw [hsl] at heq
      simp only [Prod.mk.injEq] at heq
      obtain ⟨rfl, rfl, -, rfl⟩ := heq
      obtain ⟨h1, h2⟩ := wfStore_spec hw hsl
      refine ⟨hw, le_refl _, le_of_lt h1, h2, ?_⟩
      intro r hr
      simp only [Option.some.injEq] at hr
      subst hr
      exact ⟨le_refl _, n, hsl, rfl⟩
    | none =>
      rw [hsl] at heq
      have hw2 : wfStore (setSlot st c ⟨st.length, d⟩ ++ [none]) = true := by
        apply wfStore_of
        intro s m hm
        rw [length_extend]
        by_cases hsc : s = c
        · subst hsc
          rw [getSlot_extend_self _ hc] at hm
          simp only [Option.some.injEq] at hm
          subst hm
          refine ⟨hc, ?_⟩
          show st.length < st.length + 1
          omega
        · rw [getSlot_extend_ne _ hsc] at hm
          obtain ⟨hm1, hm2⟩ := wfStore_spec hw hm
          exact ⟨hm1, by omega⟩
      have hc2 : st.length < (setSlot st c ⟨st.length, d⟩ ++ [none]).length := by
        rw [length_extend]
        omega
      obtain ⟨hA, hB, hC, hD, hE⟩ := ih _ _ _ _ _ _ heq hw2 hc2
      rw [length_extend] at hB
      refine ⟨hA, by omega, by omega, hD, ?_⟩
      intro r hr
      obtain ⟨hr1, m, hm, hmn⟩ := hE r hr
      exact ⟨by omega, m, hm, hmn⟩

theorem pubGo_chain (p : List T) :
    ∀ (st : Store T) (c : Nat) (st2 : Store T) (c2 : Nat) (p2 : List T)
      (ret : Option RevisionRef),
      publishInternGo st c p = (st2, c2, p2, ret) →
      wfStore st = true → c < st.length →
      ∃ pub, p = pub ++ p2 ∧ chainData st2 c pub.length = pub := by
  induction p with
  | nil =>
    intro st c st2 c2 p2 ret heq hw hc
    simp only [publishInternGo, Prod.mk.injEq] at heq
    obtain ⟨rfl, rfl, hp, rfl⟩ := heq
    exact ⟨[], by simp [← hp], rfl⟩
  | cons d rest ih =>
    intro st c st2 c2 p2 ret heq hw hc
    rw [publishInternGo] at heq
    cases hsl : getSlot st c with
    | some n =>
      rw [hsl] at heq
      simp only [Prod.mk.injEq] at heq
      obtain ⟨rfl, rfl, hp, rfl⟩ := heq
      exact ⟨[], by simp [← hp], rfl⟩
    | none =>
      rw [hsl] at heq
      have hw2 : wfStore (setSlot st c ⟨st.length, d⟩ ++ [none]) = true := by
        apply wfStore_of
        intro s m hm
        rw [length_extend]
        by_cases hsc : s = c
        · subst hsc
          rw [getSlot_extend_self _ hc] at hm
          simp only [Option.some.injEq] at hm
          subst hm
          refine ⟨hc, ?_⟩
          show st.length < st.length + 1
          omega
        · rw [getSlot_extend_ne _ hsc] at hm
          obtain ⟨hm1, hm2⟩ := wfStore_spec hw hm
          exact ⟨hm1, by omega⟩
      have hc2 : st.length < (setSlot st c ⟨st.length, d⟩ ++ [none]).length := by
        rw [length_extend]
        omega
      obtain ⟨pub2, hp2, hchain⟩ := ih _ _ _ _ _ _ heq hw2 hc2
      refine ⟨d :: pub2, by simp [hp2], ?_⟩
      have hfull : getSlot st2 c = some ⟨st.length, d⟩ :=
        pubGo_preserves_full rest _ _ _ _ _ _ heq c _ (getSlot_extend_self _ hc)
      simp [List.length_cons, chainData, hfull, hchain]

theorem publishIntern_preserves_full (st : Store T) (q : Queue T) (s : Nat)
    (v : RevisionNode T) (h : getSlot st s = some v) :
    getSlot (publishIntern st q).1 s = some v := by
  rw [publishIntern]
  rcases hgo : publishInternGo st q.next q.pending with ⟨st2, c2, p2, ret⟩
  exact pubGo_preserves_full _ _ _ _ _ _ _ hgo s v h

theorem iterNext_preserves_full (st : Store T) (q : Queue T) (s : Nat)
    (v : RevisionNode T) (h : getSlot st s = some v) :
    getSlot (iterNext st q).1 s = some v := by
  have hpre := publishIntern_preserves_full st q s v h
  rw [iterNext]
  rcases hpi : publishIntern st q with ⟨st2, q2, ret⟩
  rw [hpi] at hpre
  cases ret with
  | some r => exact hpre
  | none =>
    rcases hnf : newAndForward st2 q2.next with ⟨c3, r3⟩
    exact hpre

theorem iterNext_spec (st : Store T) (q : Queue T) (st2 : Store T) (q2 : Queue T)
    (ret : Option RevisionRef) (heq : iterNext st q = (st2, q2, ret))
    (hw : wfStore st = true) (hc : q.next < st.length) :
    wfStore st2 = true ∧ st.length ≤ st2.length ∧ q.next ≤ q2.next ∧ q2.next < st2.length
      ∧ (∀ s v, getSlot st s = some v → getSlot st2 s = some v)
      ∧ (∀ r, ret = some r → q.next ≤ r.inner ∧ r.inner < q2.next
            ∧ ∃ n, getSlot st2 r.inner = some n ∧ q2.next = n.next) := by
  rw [iterNext, publishIntern] at heq
  rcases hgo : publishInternGo st q.next q.pending with ⟨st4, c4, p4, ret4⟩
  rw [hgo] at heq
  obtain ⟨hW, hL, hC, hD, hR⟩ := pubGo_spec _ _ _ _ _ _ _ hgo hw hc
  have hpres : ∀ s v, getSlot st s = some v → getSlot st4 s = some v :=
    fun s v hv => pubGo_preserves_full _ _ _ _ _ _ _ hgo s v hv
  cases ret4 with
  | some r0 =>
    simp only [Prod.mk.injEq] at heq
    obtain ⟨rfl, rfl, rfl⟩ := heq
    obtain ⟨hr1, n, hn, hnn⟩ := hR r0 rfl
    obtain ⟨hlt, -⟩ := wfStore_spec hW hn
    refine ⟨hW, hL, hC, hD, hpres, ?_⟩
    intro r hr
    simp only [Option.some.injEq] at hr
    subst hr
    refine ⟨hr1, ?_, n, hn, hnn⟩
    show r0.inner < c4
    omega
  | none =>
    simp only [newAndForward] at heq
    cases hnf : getSlot st4 c4 with
    | some n =>
      rw [hnf] at heq
      simp only [Prod.mk.injEq] at heq
      obtain ⟨rfl, rfl, rfl⟩ := heq
      obtain ⟨hlt, hlt2⟩ := wfStore_spec hW hnf
      refine ⟨hW, hL, ?_, ?_, hpres, ?_⟩
      · show q.next ≤ n.next
        omega
      · show n.next < st4.length
        exact hlt2
      · intro r hr
        simp only [Option.some.injEq] at hr
        subst hr
        refine ⟨hC, ?_, n, hnf, rfl⟩
        show c4 < n.next
        exact hlt
    | none =>
      rw [hnf] at heq
      simp only [Prod.mk.injEq] at heq
      obtain ⟨rfl, rfl, rfl⟩ := heq
      refine ⟨hW, hL, ?_, ?_, hpres, ?_⟩
      · show q.next ≤ c4
        exact hC
      · show c4 < st4.length
        exact hD
      · intro r hr
        cases hr

theorem wfSys_spec {sys : System T} (h : wfSys sys = true) :
    wfStore sys.store = true ∧ ∀ hq ∈ sys.handles, hq.next < sys.store.length := by
  simp only [wfSys, Bool.and_eq_true, List.all_eq_true, decide_eq_true_eq] at h
  exact h

theorem wfSys_of {sys : System T} (h1 : wfStore sys.store = true)
    (h2 : ∀ hq ∈ sys.handles, hq.next < sys.store.length) : wfSys sys = true := by
  simp only [wfSys, Bool.and_eq_true, List.all_eq_true, decide_eq_true_eq]
  exact ⟨h1, h2⟩

theorem applyOp_spec (sys : System T) (op : Op T) (hw : wfSys sys = true) :
    wfSys (applyOp sys op).1 = true
      ∧ sys.store.length ≤ (applyOp sys op).1.store.length
      ∧ (∀ (j : Nat) (hj : Queue T), sys.handles[j]? = some hj →
            ∃ hj2, (applyOp sys op).1.handles[j]? = some hj2 ∧ hj.next ≤ hj2.next)
      ∧ (∀ (i2 s2 : Nat), (applyOp sys op).2 = some (i2, s2) →
            ∃ ha hb, sys.handles[i2]? = some ha ∧ (applyOp sys op).1.handles[i2]? = some hb
              ∧ ha.next ≤ s2 ∧ s2 < hb.next) := by
  obtain ⟨hwst, hwh⟩ := wfSys_spec hw
  cases op with
  | enqueue i a =>
    cases hhi : sys.handles[i]? with
    | none =>
      simp only [applyOp, hhi]
      exact ⟨hw, le_refl _, fun j hj hjh => ⟨hj, hjh, le_refl _⟩,
        fun i2 s2 h2 => Option.noConfusion h2⟩
    | some h =>
      simp only [applyOp, hhi]
      have hilen : i < sys.handles.length := (List.getElem?_eq_some_iff.mp hhi).1
      refine ⟨?_, le_refl _, ?_, fun i2 s2 h2 => Option.noConfusion h2⟩
      · apply wfSys_of
        · exact hwst
        · intro hq hmemq
          rcases List.mem_or_eq_of_mem_set hmemq with hin | rfl
          · exact hwh hq hin
          · exact hwh h (List.getElem?_mem hhi)
      · intro j hj hjh
        by_cases hji : j = i
        · subst hji
          rw [hhi] at hjh
          simp only [Option.some.injEq] at hjh
          subst hjh
          exact ⟨enqueue h a, List.getElem?_set_self hilen, le_refl _⟩
        · exact ⟨hj, by rw [List.getElem?_set_ne (Ne.symm hji)]; exact hjh, le_refl _⟩
  | advance i =>
    cases hhi : sys.handles[i]? with
    | none =>
      simp only [applyOp, hhi]
      exact ⟨hw, le_refl _, fun j hj hjh => ⟨hj, hjh, le_refl _⟩,
        fun i2 s2 h2 => Option.noConfusion h2⟩
    | some h =>
      have hilen : i < sys.handles.length := (List.getElem?_eq_some_iff.mp hhi).1
      have hmem : h ∈ sys.handles := List.getElem?_mem hhi
      rcases hit : iterNext sys.store h with ⟨st2, h2, ret⟩
      obtain ⟨hW2, hL2, hC2, hD2, hP2, hR2⟩ := iterNext_spec _ _ _ _ _ hit hwst (hwh h hmem)
      have hwall : ∀ hq ∈ sys.handles.set i h2, hq.next < st2.length := by
        intro hq hmemq
        rcases List.mem_or_eq_of_mem_set hmemq with hin | rfl
        · exact lt_of_lt_of_le (hwh hq hin) hL2
        · exact hD2
      have hhandles : ∀ (j : Nat) (hj : Queue T), sys.handles[j]? = some hj →
          ∃ hj2, (sys.handles.set i h2)[j]? = some hj2 ∧ hj.next ≤ hj2.next := by
        intro j hj hjh
        by_cases hji : j = i
        · subst hji
          rw [hhi] at hjh
          simp only [Option.some.injEq] at hjh
          subst hjh
          exact ⟨h2, List.getElem?_set_self hilen, hC2⟩
        · exact ⟨hj, by rw [List.getElem?_set_ne (Ne.symm hji)]; exact hjh, le_refl _⟩
      cases ret with
      | some r =>
        simp only [applyOp, hhi, hit]
        refine ⟨wfSys_of hW2 hwall, hL2, hhandles, ?_⟩
        intro i2 s2 hobs
        simp only [Option.some.injEq, Prod.mk.injEq] at hobs
        obtain ⟨rfl, rfl⟩ := hobs
        obtain ⟨ha1, ha2, -⟩ := hR2 r rfl
        exact ⟨h, h2, hhi, List.getElem?_set_self hilen, ha1, ha2⟩
      | none =>
        simp only [applyOp, hhi, hit]
        exact ⟨wfSys_of hW2 hwall, hL2, hhandles, fun i2 s2 h2x => Option.noConfusion h2x⟩
  | clone i =>
    cases hhi : sys.handles[i]? with
    | none =>
      simp only [applyOp, hhi]
      exact ⟨hw, le_refl _, fun j hj hjh => ⟨hj, hjh, le_refl _⟩,
        fun i2 s2 h2 => Option.noConfusion h2⟩
    | some h =>
      simp only [applyOp, hhi]
      refine ⟨?_, le_refl _, ?_, fun i2 s2 h2 => Option.noConfusion h2⟩
      · apply wfSys_of
        · exact hwst
        · intro hq hmemq
          rcases List.mem_append.mp hmemq with hin | hsing
          · exact hwh hq hin
          · rcases List.mem_singleton.mp hsing with rfl
            exact hwh h (List.getElem?_mem hhi)
      · intro j hj hjh
        have hjlen : j < sys.handles.length := (List.getElem?_eq_some_iff.mp hjh).1
        exact ⟨hj, by rw [List.getElem?_append_left hjlen]; exact hjh, le_refl _⟩

theorem run_cons (sys : System T) (op : Op T) (ops : List (Op T)) :
    run sys (op :: ops)
      = ((run (applyOp sys op).1 ops).1,
         (applyOp sys op).2.toList ++ (run (applyOp sys op).1 ops).2) := by
  rw [run]

theorem obsOf_append (i : Nat) (a b : List (Nat × Nat)) :
    obsOf i (a ++ b) = obsOf i a ++ obsOf i b := by
  simp [obsOf]

theorem obsOf_single_self (i s : Nat) : obsOf i [(i, s)] = [s] := by
  simp [obsOf]

theorem obsOf_single_ne (i j s : Nat) (h : j ≠ i) : obsOf i [(j, s)] = [] := by
  simp [obsOf, h]

theorem run_spec (ops : List (Op T)) :
    ∀ (sys : System T), wfSys sys = true →
      wfSys (run sys ops).1 = true
      ∧ (∀ (j : Nat) (hj : Queue T), sys.handles[j]? = some hj →
            ∃ hj2, (run sys ops).1.handles[j]? = some hj2 ∧ hj.next ≤ hj2.next)
      ∧ (∀ i : Nat, (obsOf i (run sys ops).2).Pairwise (fun a b => a < b))
      ∧ (∀ (i s : Nat) (hj : Queue T), s ∈ obsOf i (run sys ops).2 →
            sys.handles[i]? = some hj → hj.next ≤ s) := by
  induction ops with
  | nil =>
    intro sys hw
    refine ⟨hw, ?_, ?_, ?_⟩
    · intro j hj hjh
      exact ⟨hj, hjh, le_refl _⟩
    · intro i
      simp [run, obsOf]
    · intro i s hj hs
      simp [run, obsOf] at hs
  | cons op rest ih =>
    intro sys hw
    obtain ⟨hw2, hlen2, hhandle2, hobs2⟩ := applyOp_spec sys op hw
    obtain ⟨hwf3, hh3, hpw3, hlow3⟩ := ih (applyOp sys op).1 hw2
    rw [run_cons]
    refine ⟨hwf3, ?_, ?_, ?_⟩
    · intro j hj hjh
      obtain ⟨hjA, hA1, hA2⟩ := hhandle2 j hj hjh
      obtain ⟨hjB, hB1, hB2⟩ := hh3 j hjA hA1
      exact ⟨hjB, hB1, le_trans hA2 hB2⟩
    · intro i
      show (obsOf i ((applyOp sys op).2.toList ++ (run (applyOp sys op).1 rest).2)).Pairwise
        (fun a b => a < b)
      rw [obsOf_append]
      cases hobs : (applyOp sys op).2 with
      | none =>
        simpa [Option.toList, obsOf] using hpw3 i
      | some p =>
        rcases p with ⟨i0, s0⟩
        by_cases hi0 : i0 = i
        · subst hi0
          rw [show (some (i0, s0)).toList = [(i0, s0)] from rfl, obsOf_single_self]
          refine List.Pairwise.cons ?_ (hpw3 i0)
          intro x hx
          obtain ⟨ha, hb, hha, hhb, hle, hlt⟩ := hobs2 i0 s0 hobs
          have hlow := hlow3 i0 x hb hx hhb
          omega
        · rw [show (some (i0, s0)).toList = [(i0, s0)] from rfl, obsOf_single_ne _ _ _ hi0]
          simpa using hpw3 i
    · intro i s hj hs hjh
      dsimp only at hs
      rw [obsOf_append] at hs
      rcases List.mem_append.mp hs with hhead | htail
      · cases hobs : (applyOp sys op).2 with
        | none =>
          rw [hobs] at hhead
          simp [obsOf] at hhead
        | some p =>
          rcases p with ⟨i0, s0⟩
          rw [hobs] at hhead
          by_cases hi0 : i0 = i
          · subst hi0
            rw [show (some (i0, s0)).toList = [(i0, s0)] from rfl,
              obsOf_single_self] at hhead
            rw [List.mem_singleton] at hhead
            subst hhead
            obtain ⟨ha, hb, hha, hhb, hle, hlt⟩ := hobs2 i0 s hobs
            rw [hjh] at hha
            simp only [Option.some.injEq] at hha
            subst hha
            exact hle
          · rw [show (some (i0, s0)).toList = [(i0, s0)] from rfl,
              obsOf_single_ne _ _ _ hi0] at hhead
            simp at hhead
      · obtain ⟨hjA, hA1, hA2⟩ := hhandle2 i hj hjh
        exact le_trans hA2 (hlow3 i s hjA htail hA1)

theorem nextAsyncRun_none_sole (env : List (AsyncEnv T)) :
    ∀ (q : Queue T) (out : Store T × Queue T × Option RevisionRef),
      nextAsyncRun q env = some out → out.2.2 = none → ∃ e ∈ env, e.sole = true := by
  induction env with
  | nil =>
    intro q out h hnone
    simp [nextAsyncRun] at h
  | cons e rest ih =>
    intro q out h hnone
    rw [nextAsyncRun] at h
    rcases hit : iterNext e.store q with ⟨st2, q2, ret⟩
    rw [hit] at h
    cases ret with
    | some r =>
      simp only [Option.some.injEq] at h
      subst h
      simp at hnone
    | none =>
      by_cases hsole : e.sole = true
      · exact ⟨e, List.mem_cons_self e rest, hsole⟩
      · dsimp only at h
        rw [if_neg hsole] at h
        obtain ⟨e2, he2, hs2⟩ := ih q2 out h hnone
        exact ⟨e2, List.mem_cons_of_mem e he2, hs2⟩

theorem nextBlockingRun_none_sole (env : List (Store T × Bool)) :
    ∀ (q : Queue T) (out : Store T × Queue T × Option RevisionRef),
      nextBlockingRun q env = some out → out.2.2 = none → ∃ e ∈ env, e.2 = true := by
  induction env with
  | nil =>
    intro q out h hnone
    simp [nextBlockingRun] at h
  | cons e rest ih =>
    intro q out h hnone
    rw [nextBlockingRun] at h
    rcases hit : iterNext e.1 q with ⟨st2, q2, ret⟩
    rw [hit] at h
    cases ret with
    | some r =>
      simp only [Option.some.injEq] at h
      subst h
      simp at hnone
    | none =>
      by_cases hsole : e.2 = true
      · exact ⟨e, List.mem_cons_self e rest, hsole⟩
      · dsimp only at h
        rw [if_neg hsole] at h
        obtain ⟨e2, he2, hs2⟩ := ih q2 out h hnone
        exact ⟨e2, List.mem_cons_of_mem e he2, hs2⟩

theorem nextAsyncRun_sole_immediate (q : Queue T) (e : AsyncEnv T)
    (rest : List (AsyncEnv T)) (hs : e.sole = true) :
    nextAsyncRun q (e :: rest) = nextAsyncRun q [e]
      ∧ (nextAsyncRun q (e :: rest)).isSome = true := by
  rw [nextAsyncRun, nextAsyncRun]
  rcases hit : iterNext e.store q with ⟨st2, q2, ret⟩
  cases ret with
  | some r => exact ⟨by rfl, by rfl⟩
  | none =>
    rcases hnf : newAndForward e.recheckStore q2.next with ⟨c3, r3⟩
    simp [hs, hnf]

theorem nextBlockingRun_sole_immediate (q : Queue T) (e : Store T × Bool)
    (rest : List (Store T × Bool)) (hs : e.2 = true) :
    nextBlockingRun q (e :: rest) = nextBlockingRun q [e]
      ∧ (nextBlockingRun q (e :: rest)).isSome = true := by
  rw [nextBlockingRun, nextBlockingRun]
  rcases hit : iterNext e.1 q with ⟨st2, q2, ret⟩
  cases ret with
  | some r => exact ⟨by rfl, by rfl⟩
  | none =>
    simp [hs]

/-- C1: for a queue handle with a non-empty pending buffer, when the publish
attempt inside advance (Iterator::next / publish_intern) loses the
compare-and-set race on the cursor slot (the slot already holds a node
appended by another handle), the popped value is pushed back onto the front
of the pending buffer (so the buffer as a whole is unchanged), the cursor is
replaced by the winning node successor slot, the store is untouched, and a
revision reference to the winning node is returned. -/
theorem c1_publish_race_loss (st : Store T) (q : Queue T) (n : RevisionNode T)
    (d : T) (rest : List T)
    (hslot : getSlot st q.next = some n) (hp : q.pending = d :: rest) :
    publishIntern st q = (st, ⟨n.next, d :: rest⟩, some ⟨q.next⟩)
      ∧ derefSlot st ⟨q.next⟩ = some n.data := by
  constructor
  · rw [publishIntern, hp, publishInternGo, hslot]
  · simp [derefSlot, hslot]

/-- Witness for C1: a two-slot store whose first slot already holds a node
with payload 42, a handle whose cursor is that slot and whose pending buffer
holds 7. -/
theorem c1_witness :
    publishIntern ([some ⟨1, 42⟩, none] : Store Nat) ⟨0, [7]⟩
        = ([some ⟨1, 42⟩, none], ⟨1, [7]⟩, some ⟨0⟩)
      ∧ derefSlot ([some ⟨1, 42⟩, none] : Store Nat) ⟨0⟩ = some 42 :=
  c1_publish_race_loss [some ⟨1, 42⟩, none] ⟨0, [7]⟩ ⟨1, 42⟩ 7 [] (by rfl) (by rfl)

/-- C8: with an empty pending buffer, advance (Iterator::next) reads the
cursor slot: if the slot holds a node it returns a revision reference to that
node and advances the cursor to the node successor slot; if the slot is empty
it returns nothing and changes nothing.  The embedding is a total function:
no error outcome exists. -/
theorem c8_advance_empty_pending (st : Store T) (q : Queue T) (hp : q.pending = []) :
    (∀ n : RevisionNode T, getSlot st q.next = some n →
        iterNext st q = (st, ⟨n.next, []⟩, some ⟨q.next⟩))
      ∧ (getSlot st q.next = none → iterNext st q = (st, q, none)) := by
  obtain ⟨c, p⟩ := q
  dsimp only at hp
  subst hp
  refine ⟨?_, ?_⟩
  · intro n hn
    simp [iterNext, publishIntern, publishInternGo, newAndForward, hn]
  · intro hn
    simp [iterNext, publishIntern, publishInternGo, newAndForward, hn]

/-- Witness for C8: both the full-slot case and the empty-slot case at a
concrete one-node store. -/
theorem c8_witness :
    iterNext ([some ⟨1, 5⟩, none] : Store Nat) ⟨0, []⟩
        = ([some ⟨1, 5⟩, none], ⟨1, []⟩, some ⟨0⟩)
      ∧ iterNext ([some ⟨1, 5⟩, none] : Store Nat) ⟨1, []⟩
        = ([some ⟨1, 5⟩, none], ⟨1, []⟩, none) :=
  ⟨(c8_advance_empty_pending [some ⟨1, 5⟩, none] ⟨0, []⟩ (by rfl)).1 ⟨1, 5⟩ (by rfl),
   (c8_advance_empty_pending [some ⟨1, 5⟩, none] ⟨1, []⟩ (by rfl)).2 (by rfl)⟩

/-- C9: cloning a handle shares the current cursor slot of the source and
starts with an empty pending buffer. -/
theorem c9_clone_semantics (q : Queue T) :
    (cloneQueue q).next = q.next ∧ (cloneQueue q).pending = [] :=
  ⟨rfl, rfl⟩

/-- C4 counterexample: in the current code (src/lib.rs, RevisionRef::try_detach)
success requires unique ownership of the referenced node only, not of the node
successor slot-holder.  Concretely: one published node in slot 0 whose
successor slot 1 is also the cursor of a surviving queue handle, and a single
revision reference to slot 0.  The reference is the unique owner of slot 0
(strong count 1) but the successor slot-holder 1 has strong count 2 (the node
link plus the handle cursor); the claim demands failure, yet try_detach
succeeds and returns the payload. -/
theorem c4_counterexample :
    (tryDetach (⟨[some ⟨1, 0⟩, none], [⟨1, []⟩], [⟨0⟩]⟩ : System Nat) 0).2
        = DetachOut.ok 0
      ∧ strongCount (⟨[some ⟨1, 0⟩, none], [⟨1, []⟩], [⟨0⟩]⟩ : System Nat) 0 = 1
      ∧ strongCount (⟨[some ⟨1, 0⟩, none], [⟨1, []⟩], [⟨0⟩]⟩ : System Nat) 1 = 2 := by
  decide

/-- C4 (amended): try_detach succeeds exactly when the caller is the unique
owner of the referenced node (unique ownership of the successor slot-holder
is NOT required by src/lib.rs); on success the node successor pointer is
replaced by a freshly allocated empty slot and every other slot is untouched;
on failure it returns DetachError and leaves the whole system unchanged; in
either case reading through the reference still yields the original value. -/
theorem c4_detach_unique_node_owner (sys : System T) (i : Nat) (r : RevisionRef)
    (n : RevisionNode T) (hr : sys.refs[i]? = some r)
    (hn : getSlot sys.store r.inner = some n) :
    ((tryDetach sys i).2 = DetachOut.ok n.data ↔ strongCount sys r.inner = 1)
      ∧ (strongCount sys r.inner = 1 →
          (tryDetach sys i).1.store
              = setSlot sys.store r.inner ⟨sys.store.length, n.data⟩ ++ [none]
            ∧ getSlot (tryDetach sys i).1.store r.inner = some ⟨sys.store.length, n.data⟩
            ∧ getSlot (tryDetach sys i).1.store sys.store.length = none
            ∧ ∀ s : Nat, s ≠ r.inner →
                getSlot (tryDetach sys i).1.store s = getSlot sys.store s)
      ∧ (strongCount sys r.inner ≠ 1 → tryDetach sys i = (sys, DetachOut.err))
      ∧ derefSlot (tryDetach sys i).1.store r = some n.data := by
  have hlt : r.inner < sys.store.length := getSlot_lt_length hn
  by_cases hsc : strongCount sys r.inner = 1
  · have hres : tryDetach sys i
        = ({ sys with
              store := setSlot sys.store r.inner ⟨sys.store.length, n.data⟩ ++ [none] },
           DetachOut.ok n.data) := by
      rw [tryDetach, hr]
      dsimp only
      rw [if_pos hsc, hn]
    rw [hres]
    refine ⟨by simp [hsc], ?_, fun hcon => absurd hsc hcon, ?_⟩
    · intro _
      refine ⟨rfl, getSlot_extend_self _ hlt, getSlot_extend_fresh _, ?_⟩
      intro s hne
      exact getSlot_extend_ne _ hne
    · simp [derefSlot, getSlot_extend_self _ hlt]
  · have hres : tryDetach sys i = (sys, DetachOut.err) := by
      rw [tryDetach, hr]
      dsimp only
      rw [if_neg hsc]
    rw [hres]
    refine ⟨?_, fun h1 => absurd h1 hsc, fun _ => rfl, by simp [derefSlot, hn]⟩
    constructor
    · intro hok
      exact DetachOut.noConfusion hok
    · intro h1
      exact absurd h1 hsc

/-- Witness for the amended C4 at the counterexample system: the slot holds
the node, and after the successful detach the reference still reads the
original payload. -/
theorem c4_witness :
    getSlot ([some ⟨1, 0⟩, none] : Store Nat) 0 = some ⟨1, 0⟩
      ∧ derefSlot
          (tryDetach (⟨[some ⟨1, 0⟩, none], [⟨1, []⟩], [⟨0⟩]⟩ : System Nat) 0).1.store ⟨0⟩
        = some 0 :=
  ⟨by rfl,
   (c4_detach_unique_node_owner (⟨[some ⟨1, 0⟩, none], [⟨1, []⟩], [⟨0⟩]⟩ : System Nat)
      0 ⟨0⟩ ⟨1, 0⟩ (by rfl) (by rfl)).2.2.2⟩

/-- C10: try_into_inner is atomic on failure: a reference that is not the
unique owner of its node gets itself handed back in Err with the whole system
unchanged, still dereferencing to the same payload; a uniquely owned
reference yields Ok with exactly the payload it dereferenced to before the
call. -/
theorem c10_try_into_inner_atomic (sys : System T) (i : Nat) (r : RevisionRef)
    (n : RevisionNode T) (hr : sys.refs[i]? = some r)
    (hn : getSlot sys.store r.inner = some n) :
    derefSlot sys.store r = some n.data
      ∧ (strongCount sys r.inner ≠ 1 →
          tryIntoInner sys i = (sys, IntoInnerOut.errSelf))
      ∧ (strongCount sys r.inner = 1 →
          (tryIntoInner sys i).2 = IntoInnerOut.ok n.data) := by
  refine ⟨by simp [derefSlot, hn], ?_, ?_⟩
  · intro hsc
    rw [tryIntoInner, hr]
    dsimp only
    rw [if_neg hsc]
  · intro hsc
    rw [tryIntoInner, hr]
    dsimp only
    rw [if_pos hsc, hn]

/-- Witness for C10: a node with payload 3 referenced by two revision
references; try_into_inner fails and hands the system back untouched. -/
theorem c10_witness :
    derefSlot ([some ⟨1, 3⟩, none] : Store Nat) ⟨0⟩ = some 3
      ∧ tryIntoInner (⟨[some ⟨1, 3⟩, none], [], [⟨0⟩, ⟨0⟩]⟩ : System Nat) 0
          = (⟨[some ⟨1, 3⟩, none], [], [⟨0⟩, ⟨0⟩]⟩, IntoInnerOut.errSelf) := by
  have h := c10_try_into_inner_atomic
    (⟨[some ⟨1, 3⟩, none], [], [⟨0⟩, ⟨0⟩]⟩ : System Nat) 0 ⟨0⟩ ⟨1, 3⟩ (by rfl) (by rfl)
  exact ⟨h.1, h.2.1 (by decide)⟩

/-- C5: append slots are written at most once.  Over every queue operation
(enqueue, advance, clone — try_detach excepted, as the claim allows) a full
slot keeps its node unchanged; moreover a losing publish attempt leaves the
store untouched, leaves the contested slot holding the winning node, and
returns a reference to that winner. -/
theorem c5_slot_write_once (sys : System T) (op : Op T) (s : Nat) (v : RevisionNode T)
    (hfull : getSlot sys.store s = some v)
    (st : Store T) (q : Queue T) (n : RevisionNode T) (d : T) (rest : List T)
    (hn : getSlot st q.next = some n) (hp : q.pending = d :: rest) :
    getSlot (applyOp sys op).1.store s = some v
      ∧ (publishIntern st q).1 = st
      ∧ getSlot (publishIntern st q).1 q.next = some n
      ∧ (publishIntern st q).2.2 = some ⟨q.next⟩ := by
  have hpi : publishIntern st q = (st, ⟨n.next, d :: rest⟩, some ⟨q.next⟩) := by
    rw [publishIntern, hp, publishInternGo, hn]
  refine ⟨?_, by rw [hpi], by rw [hpi]; exact hn, by rw [hpi]⟩
  cases op with
  | enqueue i a =>
    cases hhi : sys.handles[i]? with
    | none => simpa [applyOp, hhi] using hfull
    | some h => simpa [applyOp, hhi] using hfull
  | advance i =>
    cases hhi : sys.handles[i]? with
    | none => simpa [applyOp, hhi] using hfull
    | some h =>
      rcases hit : iterNext sys.store h with ⟨st2, h2, ret⟩
      have hpres := iterNext_preserves_full sys.store h s v hfull
      rw [hit] at hpres
      cases ret with
      | some r => simpa [applyOp, hhi, hit] using hpres
      | none => simpa [applyOp, hhi, hit] using hpres
  | clone i =>
    cases hhi : sys.handles[i]? with
    | none => simpa [applyOp, hhi] using hfull
    | some h => simpa [applyOp, hhi] using hfull

/-- Witness for C5: advancing the surviving handle of a one-node system
leaves the full slot 0 unchanged, and a losing publish over the same store
returns the winner without touching the store. -/
theorem c5_witness :
    getSlot (applyOp (⟨[some ⟨1, 4⟩, none], [⟨1, []⟩], []⟩ : System Nat)
        (Op.advance 0)).1.store 0 = some ⟨1, 4⟩
      ∧ (publishIntern ([some ⟨1, 4⟩, none] : Store Nat) ⟨0, [9]⟩).1 = [some ⟨1, 4⟩, none]
      ∧ getSlot (publishIntern ([some ⟨1, 4⟩, none] : Store Nat) ⟨0, [9]⟩).1 0 = some ⟨1, 4⟩
      ∧ (publishIntern ([some ⟨1, 4⟩, none] : Store Nat) ⟨0, [9]⟩).2.2 = some ⟨0⟩ :=
  c5_slot_write_once (⟨[some ⟨1, 4⟩, none], [⟨1, []⟩], []⟩ : System Nat) (Op.advance 0)
    0 ⟨1, 4⟩ (by rfl) [some ⟨1, 4⟩, none] ⟨0, [9]⟩ ⟨1, 4⟩ 9 [] (by rfl) (by rfl)

/-- C6: FIFO per producer.  enqueue appends to the back of the pending
buffer, and publish_intern drains the buffer front to back: the published
prefix appears in the chain, starting at the old cursor, in exactly its
original order, and a value whose publish attempt fails stays at the front of
the remaining buffer — the original buffer is the published prefix followed
by the remaining buffer, never reordered. -/
theorem c6_fifo_per_producer (st : Store T) (q : Queue T) (a : T)
    (hw : wfStore st = true) (hc : q.next < st.length)
    (st2 : Store T) (q2 : Queue T) (ret : Option RevisionRef)
    (heq : publishIntern st q = (st2, q2, ret)) :
    (enqueue q a).pending = q.pending ++ [a]
      ∧ ∃ pub, q.pending = pub ++ q2.pending
          ∧ chainData st2 q.next pub.length = pub := by
  refine ⟨rfl, ?_⟩
  rw [publishIntern] at heq
  rcases hgo : publishInternGo st q.next q.pending with ⟨st3, c3, p3, ret3⟩
  rw [hgo] at heq
  simp only [Prod.mk.injEq] at heq
  obtain ⟨rfl, hq2, rfl⟩ := heq
  obtain ⟨pub, hp, hchain⟩ := pubGo_chain _ _ _ _ _ _ _ hgo hw hc
  subst hq2
  exact ⟨pub, hp, hchain⟩

/-- Witness for C6: publishing the buffer 7, 8 from a fresh one-slot store
links both values in enqueue order. -/
theorem c6_witness :
    (enqueue (⟨0, [7, 8]⟩ : Queue Nat) 9).pending = [7, 8] ++ [9]
      ∧ ∃ pub, (⟨0, [7, 8]⟩ : Queue Nat).pending
            = pub ++ (⟨2, ([] : List Nat)⟩ : Queue Nat).pending
          ∧ chainData ([some ⟨1, 7⟩, some ⟨2, 8⟩, none] : Store Nat) 0 pub.length = pub :=
  c6_fifo_per_producer [none] ⟨0, [7, 8]⟩ 9 (by decide) (by decide)
    [some ⟨1, 7⟩, some ⟨2, 8⟩, none] ⟨2, []⟩ none (by decide)

/-- C7: no duplication and forward-only cursors.  Over every sequence of
enqueue, advance and clone operations on a well-formed system, the slots a
handle observes are strictly increasing (so no handle materializes the same
node twice), cursors never regress, and every advance that materializes a
reference moves the cursor of that handle to the successor slot of the
returned node. -/
theorem c7_no_duplicate_forward_only (sys : System T) (ops : List (Op T))
    (hw : wfSys sys = true) :
    (∀ i : Nat, (obsOf i (run sys ops).2).Pairwise (fun a b => a < b))
      ∧ (∀ (j : Nat) (hj : Queue T), sys.handles[j]? = some hj →
            ∃ hj2, (run sys ops).1.handles[j]? = some hj2 ∧ hj.next ≤ hj2.next)
      ∧ (∀ (i s : Nat) (sys2 : System T),
            applyOp sys (Op.advance i) = (sys2, some (i, s)) →
            ∃ (hb : Queue T) (n : RevisionNode T), sys2.handles[i]? = some hb
              ∧ getSlot sys2.store s = some n ∧ hb.next = n.next) := by
  obtain ⟨hwf, hh, hpw, hlow⟩ := run_spec ops sys hw
  refine ⟨hpw, hh, ?_⟩
  intro i s sys2 hstep
  obtain ⟨hwst, hwh⟩ := wfSys_spec hw
  cases hhi : sys.handles[i]? with
  | none =>
    simp only [applyOp, hhi, Prod.mk.injEq] at hstep
    exact absurd hstep.2 (fun hcon => Option.noConfusion hcon)
  | some h =>
    have hilen : i < sys.handles.length := (List.getElem?_eq_some_iff.mp hhi).1
    have hmem : h ∈ sys.handles := List.getElem?_mem hhi
    rcases hit : iterNext sys.store h with ⟨st2, h2, ret⟩
    obtain ⟨hW2, hL2, hC2, hD2, hP2, hR2⟩ := iterNext_spec _ _ _ _ _ hit hwst (hwh h hmem)
    cases ret with
    | none =>
      simp only [applyOp, hhi, hit, Prod.mk.injEq] at hstep
      exact absurd hstep.2 (fun hcon => Option.noConfusion hcon)
    | some r =>
      have h1 := congrArg Prod.fst hstep
      have h2eq := congrArg Prod.snd hstep
      dsimp only [applyOp, hhi, hit] at h1 h2eq
      simp only [applyOp, hhi, hit] at h1 h2eq
      simp only [Option.some.injEq, Prod.mk.injEq] at h2eq
      obtain ⟨-, hs⟩ := h2eq
      subst hs
      subst h1
      obtain ⟨-, -, n, hgs, hnext⟩ := hR2 r rfl
      refine ⟨h2, n, ?_, ?_, hnext⟩
      · show (sys.handles.set i h2)[i]? = some h2
        exact List.getElem?_set_self hilen
      · show getSlot st2 r.inner = some n
        exact hgs

/-- Witness for C7: two handles over a fresh store; handle 0 publishes 1 and
2, handle 1 then observes slots 0 and 1 in strictly increasing order. -/
theorem c7_witness :
    wfSys (⟨[none], [⟨0, []⟩, ⟨0, []⟩], []⟩ : System Nat) = true
      ∧ (obsOf 1 (run (⟨[none], [⟨0, []⟩, ⟨0, []⟩], []⟩ : System Nat)
            [Op.enqueue 0 1, Op.enqueue 0 2, Op.advance 0,
             Op.advance 1, Op.advance 1, Op.advance 1]).2).Pairwise
          (fun a b => a < b) :=
  ⟨by decide,
   (c7_no_duplicate_forward_only (⟨[none], [⟨0, []⟩, ⟨0, []⟩], []⟩ : System Nat)
      [Op.enqueue 0 1, Op.enqueue 0 2, Op.advance 0,
       Op.advance 1, Op.advance 1, Op.advance 1] (by decide)).1 1⟩

/-- C2: the waiting loops return the no-data answer only when the calling
handle is the sole remaining owner of the shared wait registry: a run of
next_async or next_blocking that terminates with no revision passed an
iteration whose sole-ownership check succeeded (so if another handle is alive
through the whole run, no-data is never returned), and a run that discovers
sole ownership at its first registration terminates in that iteration instead
of suspending — its outcome does not depend on any later environment. -/
theorem c2_wait_none_only_when_sole (q : Queue T) (env : List (AsyncEnv T))
    (envB : List (Store T × Bool)) :
    (∀ out : Store T × Queue T × Option RevisionRef,
        nextAsyncRun q env = some out → out.2.2 = none → ∃ e ∈ env, e.sole = true)
      ∧ (∀ (e : AsyncEnv T) (rest : List (AsyncEnv T)), env = e :: rest → e.sole = true →
          nextAsyncRun q env = nextAsyncRun q [e]
            ∧ (nextAsyncRun q env).isSome = true)
      ∧ (∀ out : Store T × Queue T × Option RevisionRef,
          nextBlockingRun q envB = some out → out.2.2 = none → ∃ e ∈ envB, e.2 = true)
      ∧ (∀ (e : Store T × Bool) (rest : List (Store T × Bool)),
          envB = e :: rest → e.2 = true →
          nextBlockingRun q envB = nextBlockingRun q [e]
            ∧ (nextBlockingRun q envB).isSome = true) := by
  refine ⟨fun out h hn => nextAsyncRun_none_sole env q out h hn, ?_,
    fun out h hn => nextBlockingRun_none_sole envB q out h hn, ?_⟩
  · intro e rest hrw hs
    subst hrw
    exact nextAsyncRun_sole_immediate q e rest hs
  · intro e rest hrw hs
    subst hrw
    exact nextBlockingRun_sole_immediate q e rest hs

/-- Witness for C2: a run over the empty store that returns no data has a
sole-owner iteration, and a blocking run whose first iteration discovers sole
ownership terminates at once. -/
theorem c2_witness :
    (∃ e ∈ [(⟨[none], true, [none]⟩ : AsyncEnv Nat)], e.sole = true)
      ∧ (nextBlockingRun (⟨0, []⟩ : Queue Nat) [(([none] : Store Nat), true)]).isSome
          = true := by
  have h := c2_wait_none_only_when_sole (⟨0, []⟩ : Queue Nat)
    [(⟨[none], true, [none]⟩ : AsyncEnv Nat)] [(([none] : Store Nat), true)]
  exact ⟨h.1 ([none], ⟨0, []⟩, none) (by decide) (by decide),
    (h.2.2.2 ([none], true) [] rfl rfl).2⟩

/-- C3: dropping the handle that leaves exactly one other live handle (the
strong count of the shared registry is 2 at drop time — this is the last
handle besides a possibly suspended waiter, so afterwards no other handle
that could publish remains) drains the wakers registry and unparks every
registered thread other than the dropping one, so no suspended waiter stays
asleep; for the async variant, notify(1) wakes all listeners because at most
one other handle (hence at most one listener) exists. -/
theorem c3_last_drop_wakes_waiters (ctid strong listeners : Nat) (wakers : List Nat)
    (h2 : strong = 2) (hl : listeners ≤ strong - 1) :
    (∀ t ∈ wakers, t ≠ ctid → t ∈ (wokeQueueDrop ctid strong wakers).2)
      ∧ (wokeQueueDrop ctid strong wakers).1 = []
      ∧ queueDropNotifyCount strong listeners = listeners := by
  subst h2
  refine ⟨?_, rfl, ?_⟩
  · intro t ht hne
    simp [wokeQueueDrop, notifyAll, List.mem_filter, ht, hne]
  · simp only [queueDropNotifyCount]
    norm_num
    omega

/-- Witness for C3: thread 5 is registered while thread 9 drops the
second-to-last handle; 5 is unparked, the registry is drained, and the single
async listener is notified. -/
theorem c3_witness :
    5 ∈ (wokeQueueDrop 9 2 [5, 9]).2 ∧ (wokeQueueDrop 9 2 [5, 9]).1 = []
      ∧ queueDropNotifyCount 2 1 = 1 := by
  have h := c3_last_drop_wakes_waiters 9 2 1 [5, 9] rfl (by decide)
  exact ⟨h.1 5 (by decide) (by decide), h.2.1, h.2.2⟩

end Revenq
